import Mathlib

/-!
# Verification of the Kruskal-style MST construction in `mst.py`

This file gives a shallow embedding of the MST core of the repository
(`distance`, `make_edge`, `make_sorted_edges`, and `mst`) and proves the
specified properties about it.

Modelling choices:
* Points are pairs of integers (the claims' concrete instances all have
  integer coordinates, and none of the combinatorial properties depend on
  the coordinate type).
* `distance` models Python's `round((dx ** 2 + dy ** 2) ** 0.5)` as the
  nearest integer to the exact square root of the integer `dx^2 + dy^2`.
  The square root of a natural number is either a natural number or
  irrational, so the half-way case of `round` never arises and the
  rounding mode (Python rounds half to even) is immaterial.
* The per-edge call `random.randint(0, len(instance))` is modelled by an
  explicit key function `keys : ℕ → ℕ → ℕ` giving the drawn key for the
  pair `(i, j)`; the claims quantify over all draws, so the bound on the
  range is irrelevant.
* Python's `list.sort()` on tuples `((cost, key), i, j)` sorts by the
  lexicographic order on the tuple.  Two candidate edges compare equal
  under that order only if they are identical tuples, so every correct
  sort produces the same output; we use insertion sort.
* Python `assert` failures are modelled by `Except.error` with a tag
  naming the failed assertion.
-/

namespace MstPy

/-- A point `(x, y)`; node identity is positional (the index in the list). -/
abbrev Point := ℤ × ℤ

/-- A candidate edge.  Python represents it as `((cost, key), u, v)` with
`u = min i j` and `v = max i j`; we flatten the nested tuple into a
structure. -/
structure Edge where
  cost : ℕ
  key : ℕ
  u : ℕ
  v : ℕ
deriving DecidableEq, Repr

/-- The two `assert` statements in `mst` (`assert(len(found) <= 2)` on
line 85 and `assert(len(check) == len(instance))` on line 109). -/
inductive MstError where
  | foundAssert
  | spanAssert
deriving DecidableEq, Repr

/-- `⌊√m⌋`: the greatest `r` with `r * r ≤ m`.  Implemented with
`Nat.findGreatest`, which evaluates by kernel reduction;
`floorSqrt_eq_sqrt` below proves it agrees with `Nat.sqrt`. -/
def floorSqrt (m : ℕ) : ℕ := Nat.findGreatest (fun r => r * r ≤ m) m

/-- Embeds `distance` (mst.py lines 37–47): the Euclidean distance between
points `i` and `j`, rounded to the nearest integer.  With
`m = dx^2 + dy^2 : ℕ` and `s = ⌊√m⌋` we have
`round √m = s` iff `√m < s + 1/2` iff `m ≤ s^2 + s`; the half-way case
`m = s^2 + s + 1/4` is impossible for integers, so Python's
round-half-to-even never faces a tie here. -/
def distance (inst : List Point) (i j : ℕ) : ℕ :=
  let p := inst.getD i (0, 0)
  let q := inst.getD j (0, 0)
  let m : ℕ := ((q.1 - p.1) ^ 2 + (q.2 - p.2) ^ 2).toNat
  let s := floorSqrt m
  if m ≤ s * s + s then s else s + 1

/-- Embeds `make_edge` (mst.py lines 49–54); `keys i j` stands for the
value drawn by `random.randint(0, len(instance))` for this pair. -/
def make_edge (inst : List Point) (keys : ℕ → ℕ → ℕ) (i j : ℕ) : Edge :=
  { cost := distance inst i j, key := keys i j, u := min i j, v := max i j }

/-- The index pairs `(i, j)` with `i < j < n`, in the order produced by the
nested loops `for i in range(n): for j in range(i + 1, n)` of
`make_sorted_edges` (mst.py lines 61–63). -/
def pairList (n : ℕ) : List (ℕ × ℕ) :=
  (List.range n).flatMap fun i => (List.range' (i + 1) (n - (i + 1))).map fun j => (i, j)

/-- The lexicographic order on the Python tuple `((cost, key), i, j)`,
used by `edges.sort()` (mst.py line 64). -/
def edgeLe (a b : Edge) : Prop :=
  a.cost < b.cost ∨ (a.cost = b.cost ∧ (a.key < b.key ∨ (a.key = b.key ∧
    (a.u < b.u ∨ (a.u = b.u ∧ a.v ≤ b.v)))))

instance : DecidableRel edgeLe := fun a b => by unfold edgeLe; exact inferInstance

instance : IsTotal Edge edgeLe := ⟨by intro a b; unfold edgeLe; omega⟩

instance : IsTrans Edge edgeLe := ⟨by intro a b c; unfold edgeLe; omega⟩

/-- Embeds `make_sorted_edges` (mst.py lines 56–65): all candidate edges,
sorted by the lexicographic order on `((cost, key), i, j)`. -/
def make_sorted_edges (inst : List Point) (keys : ℕ → ℕ → ℕ) : List Edge :=
  List.insertionSort edgeLe ((pairList inst.length).map fun p => make_edge inst keys p.1 p.2)

/-- Embeds the inner scan of `mst` (mst.py lines 74–82): walk the list of
component sets; if some set contains both endpoints the edge is cyclic
(Python breaks out of the scan); otherwise collect the indices of the sets
containing one endpoint.  `k` is the index of the first set of the
remaining list. -/
def scanSets (u v : ℕ) : List (Finset ℕ) → ℕ → Bool × List ℕ
  | [], _ => (false, [])
  | s :: rest, k =>
    if u ∈ s ∧ v ∈ s then (true, [])
    else if u ∈ s ∨ v ∈ s then
      let r := scanSets u v rest (k + 1)
      (r.1, k :: r.2)
    else scanSets u v rest (k + 1)

/-- Embeds the partition mutation of `mst` (mst.py lines 87–97): create a
new two-element set, add both endpoints to the single matched set, or
merge the two matched sets (`sets[found[0]].update(sets[found[1]])`
followed by `sets.pop(found[1])`). -/
def applyEdge (sets : List (Finset ℕ)) (found : List ℕ) (u v : ℕ) : List (Finset ℕ) :=
  match found with
  | [] => sets ++ [insert v (insert u (∅ : Finset ℕ))]
  | [a] => sets.set a (insert v (insert u (sets.getD a ∅)))
  | a :: b :: _ => (sets.set a (sets.getD a ∅ ∪ sets.getD b ∅)).eraseIdx b

/-- Embeds the main loop of `mst` (mst.py lines 73–102).  Returns the
final component list, the accepted edges, and the part of the ranked edge
list left unprocessed when the `len(edges) == len(instance)` break fires
(returned for analysis; `mst` discards it). -/
def mstLoop (n : ℕ) : List Edge → List (Finset ℕ) → List Edge →
    Except MstError (List (Finset ℕ) × List Edge × List Edge)
  | [], sets, acc => .ok (sets, acc, [])
  | e :: rest, sets, acc =>
    let scan := scanSets e.u e.v sets 0
    if scan.1 then mstLoop n rest sets acc
    else if scan.2.length ≤ 2 then
      let sets' := applyEdge sets scan.2 e.u e.v
      let acc' := acc ++ [e]
      if acc'.length = n then .ok (sets', acc', rest)
      else mstLoop n rest sets' acc'
    else .error .foundAssert

/-- Embeds the `check` set of `mst` (mst.py lines 105–108): every node
index appearing as an endpoint of an accepted edge
(`check.add(e[1]); check.add(e[2])`). -/
def nodesOf (edges : List Edge) : Finset ℕ :=
  edges.foldl (fun check e => insert e.v (insert e.u check)) ∅

/-- Embeds `mst` (mst.py lines 67–111): enumerate and rank the edges, run
the Kruskal loop, then check `len(check) == len(instance)`. -/
def mst (inst : List Point) (keys : ℕ → ℕ → ℕ) : Except MstError (List Edge) :=
  match mstLoop inst.length (make_sorted_edges inst keys) [] [] with
  | .error err => .error err
  | .ok (_, edges, _) =>
    if (nodesOf edges).card = inst.length then .ok edges else .error .spanAssert

/-- Embeds `sum([x[0][0] for x in edges])` (mst.py line 168): the total
cost of the MST. -/
def totalCost (edges : List Edge) : ℕ := (edges.map Edge.cost).sum

/-- An edge modulo its random tie-break key: `(cost, u, v)`.  Everything
the caller observes (endpoints and total cost) factors through this. -/
def strip (e : Edge) : ℕ × ℕ × ℕ := (e.cost, e.u, e.v)

/-- The union of the component sets. -/
def unionSets (sets : List (Finset ℕ)) : Finset ℕ := sets.foldr (· ∪ ·) ∅

/-- Two nodes lie in a common component set. -/
def together (sets : List (Finset ℕ)) (x y : ℕ) : Prop := ∃ s ∈ sets, x ∈ s ∧ y ∈ s

/-- The Component Partition invariant stated in the spec: the sets are
pairwise disjoint, their union is exactly the set of nodes touched by the
accepted edges, and no set has fewer than two elements. -/
def PartInv (sets : List (Finset ℕ)) (acc : List Edge) : Prop :=
  sets.Pairwise Disjoint ∧ unionSets sets = nodesOf acc ∧ ∀ s ∈ sets, 2 ≤ s.card

/-- Replays the accepted edges in output order against a fresh component
partition, using the very scan and mutation of the builder; returns
`false` as soon as an edge has both endpoints in the same component. -/
def replayOk : List Edge → List (Finset ℕ) → Bool
  | [], _ => true
  | e :: rest, sets =>
    let scan := scanSets e.u e.v sets 0
    if scan.1 then false
    else replayOk rest (applyEdge sets scan.2 e.u e.v)

/-- All pairwise rounded distances of the instance are distinct (the
hypothesis of the cost-determinism property), phrased over the pair
enumeration so that it is decidable on concrete instances. -/
def costsDistinct (inst : List Point) : Prop :=
  (pairList inst.length).Pairwise fun p q => distance inst p.1 p.2 ≠ distance inst q.1 q.2

/-- The full invariant carried through the loop: the spec's partition
invariant, the counting identity `|touched| = |accepted| + |sets|`, and
boundedness of the touched nodes. -/
def Inv (n : ℕ) (sets : List (Finset ℕ)) (acc : List Edge) : Prop :=
  PartInv sets acc ∧ (nodesOf acc).card = acc.length + sets.length ∧
    nodesOf acc ⊆ Finset.range n

instance (inst : List Point) : Decidable (costsDistinct inst) := by
  unfold costsDistinct; exact List.instDecidablePairwise _

/-! ## Basic lemmas about the auxiliary structures -/

lemma floorSqrt_eq_sqrt (m : ℕ) : floorSqrt m = Nat.sqrt m := by
  have hP0 : (fun r => r * r ≤ m) 0 := by simp
  have hspec : floorSqrt m * floorSqrt m ≤ m :=
    @Nat.findGreatest_spec 0 (fun r => r * r ≤ m) _ m (Nat.zero_le m) hP0
  apply le_antisymm
  · exact Nat.le_sqrt.2 hspec
  · by_contra hcon
    push_neg at hcon
    have hle : floorSqrt m + 1 ≤ Nat.sqrt m := hcon
    have hsq : (floorSqrt m + 1) * (floorSqrt m + 1) ≤ m := by
      have h1 := Nat.sqrt_le' m
      nlinarith
    have hb : floorSqrt m + 1 ≤ m := by nlinarith
    exact Nat.findGreatest_is_greatest (Nat.lt_succ_self _) hb hsq

lemma unionSets_nil : unionSets [] = ∅ := rfl

lemma unionSets_cons (s : Finset ℕ) (l : List (Finset ℕ)) :
    unionSets (s :: l) = s ∪ unionSets l := rfl

lemma unionSets_append (l₁ l₂ : List (Finset ℕ)) :
    unionSets (l₁ ++ l₂) = unionSets l₁ ∪ unionSets l₂ := by
  induction l₁ with
  | nil => simp [unionSets_nil, unionSets_cons]
  | cons s t ih => simp [unionSets_cons, ih, Finset.union_assoc]

lemma mem_unionSets {x : ℕ} {l : List (Finset ℕ)} :
    x ∈ unionSets l ↔ ∃ s ∈ l, x ∈ s := by
  induction l with
  | nil => simp [unionSets_nil]
  | cons s t ih => simp [unionSets_cons, ih]

lemma mem_nodesOf_aux (es : List Edge) (c : Finset ℕ) (x : ℕ) :
    x ∈ es.foldl (fun check e => insert e.v (insert e.u check)) c ↔
      x ∈ c ∨ ∃ e ∈ es, x = e.u ∨ x = e.v := by
  induction es generalizing c with
  | nil => simp
  | cons e t ih =>
    simp only [List.foldl_cons, ih, Finset.mem_insert, List.mem_cons]
    constructor
    · rintro ((rfl | rfl | hc) | ⟨e', he', h⟩)
      · exact Or.inr ⟨e, Or.inl rfl, Or.inr rfl⟩
      · exact Or.inr ⟨e, Or.inl rfl, Or.inl rfl⟩
      · exact Or.inl hc
      · exact Or.inr ⟨e', Or.inr he', h⟩
    · rintro (hc | ⟨e', (rfl | he'), h⟩)
      · exact Or.inl (Or.inr (Or.inr hc))
      · rcases h with rfl | rfl
        · exact Or.inl (Or.inr (Or.inl rfl))
        · exact Or.inl (Or.inl rfl)
      · exact Or.inr ⟨e', he', h⟩

lemma mem_nodesOf {x : ℕ} {es : List Edge} :
    x ∈ nodesOf es ↔ ∃ e ∈ es, x = e.u ∨ x = e.v := by
  simpa using mem_nodesOf_aux es ∅ x

lemma nodesOf_append1 (acc : List Edge) (e : Edge) :
    nodesOf (acc ++ [e]) = insert e.v (insert e.u (nodesOf acc)) := by
  simp [nodesOf, List.foldl_append]

lemma getD_eq_getElem' {l : List (Finset ℕ)} {n : ℕ} (h : n < l.length) :
    l.getD n ∅ = l[n] := by
  simp [List.getD_eq_getElem?_getD, List.getElem?_eq_getElem, h]

lemma mem_unionSets_idx {x : ℕ} {l : List (Finset ℕ)} :
    x ∈ unionSets l ↔ ∃ i, ∃ _ : i < l.length, x ∈ l.getD i ∅ := by
  rw [mem_unionSets]
  constructor
  · rintro ⟨s, hs, hx⟩
    obtain ⟨i, hi, rfl⟩ := List.mem_iff_getElem.1 hs
    exact ⟨i, hi, by rwa [getD_eq_getElem' hi]⟩
  · rintro ⟨i, hi, hx⟩
    exact ⟨l[i], List.getElem_mem hi, by rwa [getD_eq_getElem' hi] at hx⟩

/-! ## Characterization of the scan (mst.py lines 74–82) -/

lemma scan_fst_iff (u v : ℕ) (l : List (Finset ℕ)) (k : ℕ) :
    (scanSets u v l k).1 = true ↔ ∃ s ∈ l, u ∈ s ∧ v ∈ s := by
  induction l generalizing k with
  | nil => simp [scanSets]
  | cons s t ih =>
    by_cases h1 : u ∈ s ∧ v ∈ s
    · simp [scanSets, h1]
    · by_cases h2 : u ∈ s ∨ v ∈ s
      · simp [scanSets, h1, h2, ih]
      · simp [scanSets, h1, h2, ih]

lemma scan_eq_filter {u v : ℕ} {l : List (Finset ℕ)}
    (h : ∀ s ∈ l, ¬(u ∈ s ∧ v ∈ s)) (k : ℕ) :
    scanSets u v l k =
      (false, ((List.range l.length).filter
        (fun i => decide (u ∈ l.getD i ∅ ∨ v ∈ l.getD i ∅))).map (· + k)) := by
  induction l generalizing k with
  | nil => simp [scanSets]
  | cons s t ih =>
    have h1 : ¬(u ∈ s ∧ v ∈ s) := h s (by simp)
    have ht : ∀ s' ∈ t, ¬(u ∈ s' ∧ v ∈ s') := fun s' hs' => h s' (by simp [hs'])
    have hmap : ∀ L : List ℕ, L.map (fun i => i + (k + 1)) = L.map ((· + k) ∘ Nat.succ) :=
      fun L => List.map_congr_left fun m _ => by simp [Function.comp]; omega
    by_cases h2 : u ∈ s ∨ v ∈ s
    · simp only [scanSets, if_neg h1, if_pos h2, ih ht]
      simp only [List.length_cons, List.range_succ_eq_map, List.filter_cons,
        List.getD_cons_zero, h2, decide_True, if_true, List.filter_map, List.map_cons,
        List.map_map, Prod.mk.injEq, true_and, Nat.zero_add]
      rw [hmap]
      congr 2
    · simp only [scanSets, if_neg h1, if_neg h2, ih ht]
      simp only [List.length_cons, List.range_succ_eq_map, List.filter_cons,
        List.getD_cons_zero, h2, decide_False, Bool.false_eq_true, if_false,
        List.filter_map, List.map_map, Prod.mk.injEq, true_and]
      rw [hmap]
      congr 1

lemma scan0_eq_filter {u v : ℕ} {l : List (Finset ℕ)}
    (h : ∀ s ∈ l, ¬(u ∈ s ∧ v ∈ s)) :
    scanSets u v l 0 =
      (false, (List.range l.length).filter
        (fun i => decide (u ∈ l.getD i ∅ ∨ v ∈ l.getD i ∅))) := by
  rw [scan_eq_filter h 0]
  congr 1
  have : (fun i : ℕ => i + 0) = fun i : ℕ => i := by funext i; omega
  rw [this, List.map_id']

lemma scan_false_no_both {u v : ℕ} {l : List (Finset ℕ)} {k : ℕ} {found : List ℕ}
    (h : scanSets u v l k = (false, found)) : ∀ s ∈ l, ¬(u ∈ s ∧ v ∈ s) := by
  intro s hs hboth
  have htrue := (scan_fst_iff u v l k).2 ⟨s, hs, hboth⟩
  rw [h] at htrue
  simp at htrue

lemma found_spec {u v : ℕ} {l : List (Finset ℕ)} {found : List ℕ}
    (h : scanSets u v l 0 = (false, found)) :
    found = (List.range l.length).filter
      (fun i => decide (u ∈ l.getD i ∅ ∨ v ∈ l.getD i ∅)) := by
  have hnb := scan_false_no_both h
  rw [scan0_eq_filter hnb] at h
  simpa using h.symm

lemma mem_found_iff {u v : ℕ} {l : List (Finset ℕ)} {found : List ℕ}
    (h : scanSets u v l 0 = (false, found)) {i : ℕ} :
    i ∈ found ↔ i < l.length ∧ (u ∈ l.getD i ∅ ∨ v ∈ l.getD i ∅) := by
  rw [found_spec h]
  simp [List.mem_filter, List.mem_range]

lemma found_pairwise_lt {u v : ℕ} {l : List (Finset ℕ)} {found : List ℕ}
    (h : scanSets u v l 0 = (false, found)) : found.Pairwise (· < ·) := by
  rw [found_spec h]
  exact (List.pairwise_lt_range _).filter _

lemma length_filter_or_le {α : Type} (l : List α) (p q : α → Bool) :
    (l.filter fun a => p a || q a).length ≤ (l.filter p).length + (l.filter q).length := by
  induction l with
  | nil => simp
  | cons a t ih =>
    by_cases hp : p a <;> by_cases hq : q a <;>
      simp [List.filter_cons, hp, hq] <;> omega

lemma filter_single_mem_le_one {l : List (Finset ℕ)} (hd : l.Pairwise Disjoint) (w : ℕ) :
    ((List.range l.length).filter (fun i => decide (w ∈ l.getD i ∅))).length ≤ 1 := by
  by_contra hcon
  push_neg at hcon
  have hpl : ((List.range l.length).filter
      (fun i => decide (w ∈ l.getD i ∅))).Pairwise (· < ·) :=
    (List.pairwise_lt_range _).filter _
  set f := (List.range l.length).filter (fun i => decide (w ∈ l.getD i ∅)) with hf
  have hmem : ∀ i ∈ f, i < l.length ∧ w ∈ l.getD i ∅ := by
    intro i hi
    rw [hf, List.mem_filter, List.mem_range] at hi
    exact ⟨hi.1, by simpa using hi.2⟩
  match hfe : f with
  | [] => simp at hcon
  | [a] => simp at hcon
  | a :: b :: t =>
    have hab : a < b := (List.pairwise_cons.1 hpl).1 b (by simp)
    have ha := hmem a (by simp)
    have hb := hmem b (by simp)
    have hdis : Disjoint (l.get ⟨a, ha.1⟩) (l.get ⟨b, hb.1⟩) :=
      List.pairwise_iff_get.1 hd ⟨a, ha.1⟩ ⟨b, hb.1⟩ hab
    rw [getD_eq_getElem' ha.1] at ha
    rw [getD_eq_getElem' hb.1] at hb
    exact Finset.disjoint_left.1 hdis ha.2 hb.2

lemma found_length_le_two {u v : ℕ} {l : List (Finset ℕ)} {found : List ℕ}
    (hd : l.Pairwise Disjoint) (h : scanSets u v l 0 = (false, found)) :
    found.length ≤ 2 := by
  rw [found_spec h]
  have heq : (List.range l.length).filter
        (fun i => decide (u ∈ l.getD i ∅ ∨ v ∈ l.getD i ∅)) =
      (List.range l.length).filter
        (fun i => decide (u ∈ l.getD i ∅) || decide (v ∈ l.getD i ∅)) := by
    apply List.filter_congr
    intro i _
    simp
  rw [heq]
  calc ((List.range l.length).filter
        (fun i => decide (u ∈ l.getD i ∅) || decide (v ∈ l.getD i ∅))).length
      ≤ ((List.range l.length).filter (fun i => decide (u ∈ l.getD i ∅))).length +
        ((List.range l.length).filter (fun i => decide (v ∈ l.getD i ∅))).length :=
        length_filter_or_le _ _ _
    _ ≤ 1 + 1 :=
        Nat.add_le_add (filter_single_mem_le_one hd u) (filter_single_mem_le_one hd v)
    _ ≤ 2 := le_refl 2

/-! ## Positional decompositions of the component list -/

lemma decomp1 {l : List (Finset ℕ)} {a : ℕ} (ha : a < l.length) :
    ∃ T1 T2 : List (Finset ℕ), l = T1 ++ l.getD a ∅ :: T2 ∧ T1.length = a ∧
      (∀ s ∈ T1 ++ T2, ∃ i, i < l.length ∧ i ≠ a ∧ l.getD i ∅ = s) := by
  refine ⟨l.take a, l.drop (a + 1), ?_, ?_, ?_⟩
  · conv_lhs => rw [← List.take_append_drop a l]
    rw [List.drop_eq_getElem_cons ha, getD_eq_getElem' ha]
  · simp [List.length_take]
    omega
  · intro s hs
    rcases List.mem_append.1 hs with hs | hs
    · obtain ⟨i, hi, rfl⟩ := List.mem_iff_getElem.1 hs
      have hia : i < a := by
        have := hi
        simp [List.length_take] at this
        omega
      have hil : i < l.length := lt_trans hia ha
      refine ⟨i, hil, by omega, ?_⟩
      rw [getD_eq_getElem' hil]
      exact (List.getElem_take ..).symm
    · obtain ⟨k, hk, rfl⟩ := List.mem_iff_getElem.1 hs
      have hkd : k < l.length - (a + 1) := by simpa [List.length_drop] using hk
      have hkl : a + 1 + k < l.length := by omega
      refine ⟨a + 1 + k, hkl, by omega, ?_⟩
      rw [getD_eq_getElem' hkl]
      rw [List.getElem_drop]

lemma decomp2 {l : List (Finset ℕ)} {a b : ℕ} (hab : a < b) (hb : b < l.length) :
    ∃ T1 T2 T3 : List (Finset ℕ),
      l = T1 ++ l.getD a ∅ :: (T2 ++ l.getD b ∅ :: T3) ∧ T1.length = a ∧
      T2.length = b - (a + 1) ∧
      (∀ s ∈ T1 ++ (T2 ++ T3), ∃ i, i < l.length ∧ i ≠ a ∧ i ≠ b ∧ l.getD i ∅ = s) := by
  have ha : a < l.length := lt_trans hab hb
  refine ⟨l.take a, (l.drop (a + 1)).take (b - (a + 1)), l.drop (b + 1), ?_, ?_, ?_, ?_⟩
  · conv_lhs => rw [← List.take_append_drop a l]
    rw [List.drop_eq_getElem_cons ha, getD_eq_getElem' ha]
    congr 1
    congr 1
    conv_lhs => rw [← List.take_append_drop (b - (a + 1)) (l.drop (a + 1))]
    congr 1
    rw [List.drop_drop]
    have hbb : a + 1 + (b - (a + 1)) = b := by omega
    rw [hbb, List.drop_eq_getElem_cons hb, getD_eq_getElem' hb]
  · simp [List.length_take]
    omega
  · simp [List.length_take, List.length_drop]
    omega
  · intro s hs
    rcases List.mem_append.1 hs with hs | hs
    · obtain ⟨i, hi, rfl⟩ := List.mem_iff_getElem.1 hs
      have hia : i < a := by
        have := hi
        simp [List.length_take] at this
        omega
      have hil : i < l.length := lt_trans hia ha
      refine ⟨i, hil, by omega, by omega, ?_⟩
      rw [getD_eq_getElem' hil]
      exact (List.getElem_take ..).symm
    · rcases List.mem_append.1 hs with hs | hs
      · obtain ⟨k, hk, rfl⟩ := List.mem_iff_getElem.1 hs
        have hkb : k < b - (a + 1) := by
          have := hk
          simp [List.length_take, List.length_drop] at this
          omega
        have hkl : a + 1 + k < l.length := by omega
        refine ⟨a + 1 + k, hkl, by omega, by omega, ?_⟩
        rw [getD_eq_getElem' hkl]
        rw [List.getElem_take, List.getElem_drop]
      · obtain ⟨k, hk, rfl⟩ := List.mem_iff_getElem.1 hs
        have hkl : b + 1 + k < l.length := by
          have := hk
          simp [List.length_drop] at this
          omega
        refine ⟨b + 1 + k, hkl, by omega, by omega, ?_⟩
        rw [getD_eq_getElem' hkl]
        rw [List.getElem_drop]

/-! ## The three partition mutations (mst.py lines 87–97) -/

lemma applyEdge_one_eq {l T1 T2 : List (Finset ℕ)} {a u v : ℕ}
    (hl : l = T1 ++ l.getD a ∅ :: T2) (hT1 : T1.length = a) :
    applyEdge l [a] u v = T1 ++ insert v (insert u (l.getD a ∅)) :: T2 := by
  have happ : applyEdge l [a] u v = l.set a (insert v (insert u (l.getD a ∅))) := rfl
  rw [happ]
  set X := insert v (insert u (l.getD a ∅)) with hX
  conv_lhs => rw [hl]
  rw [List.set_append_right _ _ (by omega)]
  have h0 : a - T1.length = 0 := by omega
  rw [h0]
  rfl

lemma applyEdge_two_eq {l T1 T2 T3 : List (Finset ℕ)} {a b u v : ℕ} {rest : List ℕ}
    (hl : l = T1 ++ l.getD a ∅ :: (T2 ++ l.getD b ∅ :: T3))
    (hT1 : T1.length = a) (hT2 : T2.length = b - (a + 1)) (hab : a < b) :
    applyEdge l (a :: b :: rest) u v =
      T1 ++ (l.getD a ∅ ∪ l.getD b ∅) :: (T2 ++ T3) := by
  have happ : applyEdge l (a :: b :: rest) u v =
      (l.set a (l.getD a ∅ ∪ l.getD b ∅)).eraseIdx b := rfl
  rw [happ]
  set X := l.getD a ∅ ∪ l.getD b ∅ with hX
  conv_lhs => rw [hl]
  rw [List.set_append_right _ _ (by omega)]
  have h0 : a - T1.length = 0 := by omega
  rw [h0]
  show (T1 ++ (X :: (T2 ++ l.getD b ∅ :: T3))).eraseIdx b = _
  have hassoc : T1 ++ X :: (T2 ++ l.getD b ∅ :: T3) =
      (T1 ++ X :: T2) ++ (l.getD b ∅ :: T3) := by simp
  rw [hassoc]
  rw [List.eraseIdx_append_of_length_le (by simp; omega)]
  have h1 : b - (T1 ++ X :: T2).length = 0 := by simp; omega
  rw [h1]
  simp

lemma step_case0 {sets : List (Finset ℕ)} {u v : ℕ}
    (hd : sets.Pairwise Disjoint)
    (hc : ∀ s ∈ sets, 2 ≤ s.card)
    (huv : u ≠ v)
    (hu : u ∉ unionSets sets) (hv : v ∉ unionSets sets) :
    (sets ++ [insert v (insert u (∅ : Finset ℕ))]).Pairwise Disjoint ∧
    unionSets (sets ++ [insert v (insert u ∅)]) = unionSets sets ∪ {u, v} ∧
    (∀ s ∈ sets ++ [insert v (insert u (∅ : Finset ℕ))], 2 ≤ s.card) ∧
    (unionSets (sets ++ [insert v (insert u ∅)])).card = (unionSets sets).card + 2 ∧
    (sets ++ [insert v (insert u (∅ : Finset ℕ))]).length = sets.length + 1 ∧
    (∀ x y, together sets x y → together (sets ++ [insert v (insert u ∅)]) x y) ∧
    together (sets ++ [insert v (insert u ∅)]) u v := by
  have hcard2 : (insert v (insert u (∅ : Finset ℕ))).card = 2 := by
    rw [Finset.card_insert_of_not_mem (by simp [Ne.symm huv]),
      Finset.card_insert_of_not_mem (Finset.not_mem_empty u), Finset.card_empty]
  have hunion : unionSets (sets ++ [insert v (insert u ∅)]) = unionSets sets ∪ {u, v} := by
    ext x
    simp only [unionSets_append, unionSets_cons, unionSets_nil, Finset.mem_union,
      Finset.mem_insert, Finset.mem_singleton, Finset.union_empty, Finset.not_mem_empty,
      or_false]
    tauto
  refine ⟨?_, hunion, ?_, ?_, by simp, ?_, ?_⟩
  · rw [List.pairwise_append]
    refine ⟨hd, by simp, ?_⟩
    intro s hs b hb
    simp only [List.mem_singleton] at hb
    subst hb
    rw [Finset.disjoint_right]
    intro x hx
    simp only [Finset.mem_insert, Finset.not_mem_empty, or_false] at hx
    rcases hx with rfl | rfl
    · exact fun hxs => hv (mem_unionSets.2 ⟨s, hs, hxs⟩)
    · exact fun hxs => hu (mem_unionSets.2 ⟨s, hs, hxs⟩)
  · intro s hs
    rcases List.mem_append.1 hs with hs | hs
    · exact hc s hs
    · simp only [List.mem_singleton] at hs
      subst hs
      omega
  · rw [hunion]
    have h1 : unionSets sets ∪ {u, v} = insert u (insert v (unionSets sets)) := by
      ext x; simp [Finset.mem_union, Finset.mem_insert]; tauto
    rw [h1, Finset.card_insert_of_not_mem (by simp [huv, hu]),
      Finset.card_insert_of_not_mem hv]
  · rintro x y ⟨s, hs, hx, hy⟩
    exact ⟨s, List.mem_append_left _ hs, hx, hy⟩
  · exact ⟨insert v (insert u ∅), by simp, by simp, by simp⟩

lemma step_case1 {sets : List (Finset ℕ)} {u v a : ℕ}
    (hd : sets.Pairwise Disjoint)
    (hc : ∀ s ∈ sets, 2 ≤ s.card)
    (ha : a < sets.length)
    (hPa : u ∈ sets.getD a ∅ ∨ v ∈ sets.getD a ∅)
    (hnb : ∀ s ∈ sets, ¬(u ∈ s ∧ v ∈ s))
    (hoth : ∀ i, i < sets.length → i ≠ a → u ∉ sets.getD i ∅ ∧ v ∉ sets.getD i ∅) :
    (applyEdge sets [a] u v).Pairwise Disjoint ∧
    unionSets (applyEdge sets [a] u v) = unionSets sets ∪ {u, v} ∧
    (∀ s ∈ applyEdge sets [a] u v, 2 ≤ s.card) ∧
    (unionSets (applyEdge sets [a] u v)).card = (unionSets sets).card + 1 ∧
    (applyEdge sets [a] u v).length = sets.length ∧
    (∀ x y, together sets x y → together (applyEdge sets [a] u v) x y) ∧
    together (applyEdge sets [a] u v) u v := by
  obtain ⟨T1, T2, hl, hT1, hoth'⟩ := decomp1 ha
  have happ : applyEdge sets [a] u v =
      T1 ++ insert v (insert u (sets.getD a ∅)) :: T2 := applyEdge_one_eq hl hT1
  set A := sets.getD a ∅ with hA
  set X := insert v (insert u A) with hX
  have hXA : ∀ x, x ∈ X ↔ x = v ∨ x = u ∨ x ∈ A := by intro x; simp [hX]
  have hAX : A ⊆ X := fun x hx => (hXA x).2 (Or.inr (Or.inr hx))
  have huv_other : ∀ s ∈ T1 ++ T2, u ∉ s ∧ v ∉ s := by
    intro s hs
    obtain ⟨i, hi, hia, hieq⟩ := hoth' s hs
    have hoi := hoth i hi hia
    rw [hieq] at hoi
    exact hoi
  have hAmem : A ∈ sets := by rw [hl]; simp
  have hnbA : ¬(u ∈ A ∧ v ∈ A) := hnb A hAmem
  have hdisX : ∀ s : Finset ℕ, Disjoint A s → u ∉ s → v ∉ s → Disjoint X s := by
    intro s h1 h2 h3
    rw [Finset.disjoint_left]
    intro x hx
    rcases (hXA x).1 hx with rfl | rfl | hx'
    · exact h3
    · exact h2
    · exact Finset.disjoint_left.1 h1 hx'
  have hdl := hd
  rw [hl, List.pairwise_append, List.pairwise_cons] at hdl
  obtain ⟨hpT1, ⟨hAT2, hpT2⟩, hcross⟩ := hdl
  have hXeq : X = A ∪ {u, v} := by
    ext x
    rw [hXA]
    simp only [Finset.mem_union, Finset.mem_insert, Finset.mem_singleton]
    tauto
  have hUnion : unionSets (applyEdge sets [a] u v) = unionSets sets ∪ {u, v} := by
    rw [happ, hl, unionSets_append, unionSets_append, unionSets_cons, unionSets_cons,
      hXeq]
    ext x
    simp only [Finset.mem_union, Finset.mem_insert, Finset.mem_singleton]
    tauto
  refine ⟨?_, hUnion, ?_, ?_, ?_, ?_, ?_⟩
  · rw [happ, List.pairwise_append, List.pairwise_cons]
    refine ⟨hpT1, ⟨?_, hpT2⟩, ?_⟩
    · intro s hs
      have ho := huv_other s (List.mem_append_right _ hs)
      exact hdisX s (hAT2 s hs) ho.1 ho.2
    · intro t ht b hb
      rcases List.mem_cons.1 hb with rfl | hb
      · have ho := huv_other t (List.mem_append_left _ ht)
        exact (hdisX t (hcross t ht A (by simp)).symm ho.1 ho.2).symm
      · exact hcross t ht b (by simp [hb])
  · intro s hs
    rw [happ] at hs
    rcases List.mem_append.1 hs with hs | hs
    · exact hc s (by rw [hl]; exact List.mem_append_left _ hs)
    · rcases List.mem_cons.1 hs with rfl | hs
      · calc 2 ≤ A.card := hc A hAmem
          _ ≤ (insert v (insert u A)).card :=
            Finset.card_le_card (fun x hx => by simp [hx])
      · exact hc s (by rw [hl]; exact List.mem_append_right _ (List.mem_cons_of_mem _ hs))
  · rw [hUnion]
    rcases hPa with huA | hvA
    · have hvnot : v ∉ unionSets sets := by
        intro hmem
        obtain ⟨i, hi, hvi⟩ := mem_unionSets_idx.1 hmem
        by_cases hia : i = a
        · subst hia
          exact hnbA ⟨huA, hvi⟩
        · exact (hoth i hi hia).2 hvi
      have huin : u ∈ unionSets sets := mem_unionSets.2 ⟨A, hAmem, huA⟩
      have : unionSets sets ∪ {u, v} = insert v (unionSets sets) := by
        ext x
        simp only [Finset.mem_union, Finset.mem_insert, Finset.mem_singleton]
        constructor
        · rintro (h | rfl | rfl)
          · exact Or.inr h
          · exact Or.inr huin
          · exact Or.inl rfl
        · rintro (rfl | h)
          · exact Or.inr (Or.inr rfl)
          · exact Or.inl h
      rw [this, Finset.card_insert_of_not_mem hvnot]
    · have hunot : u ∉ unionSets sets := by
        intro hmem
        obtain ⟨i, hi, hui⟩ := mem_unionSets_idx.1 hmem
        by_cases hia : i = a
        · subst hia
          exact hnbA ⟨hui, hvA⟩
        · exact (hoth i hi hia).1 hui
      have hvin : v ∈ unionSets sets := mem_unionSets.2 ⟨A, hAmem, hvA⟩
      have : unionSets sets ∪ {u, v} = insert u (unionSets sets) := by
        ext x
        simp only [Finset.mem_union, Finset.mem_insert, Finset.mem_singleton]
        constructor
        · rintro (h | rfl | rfl)
          · exact Or.inr h
          · exact Or.inl rfl
          · exact Or.inr hvin
        · rintro (rfl | h)
          · exact Or.inr (Or.inl rfl)
          · exact Or.inl h
      rw [this, Finset.card_insert_of_not_mem hunot]
  · rw [happ]
    conv_rhs => rw [hl]
    simp
  · rintro x y ⟨s, hs, hx, hy⟩
    rw [hl] at hs
    rcases List.mem_append.1 hs with hs | hs
    · exact ⟨s, by rw [happ]; exact List.mem_append_left _ hs, hx, hy⟩
    · rcases List.mem_cons.1 hs with rfl | hs
      · exact ⟨X, by rw [happ]; simp, hAX hx, hAX hy⟩
      · exact ⟨s, by rw [happ]; exact List.mem_append_right _ (List.mem_cons_of_mem _ hs),
          hx, hy⟩
  · exact ⟨X, by rw [happ]; simp, by simp [hX], by simp [hX]⟩

set_option maxHeartbeats 1000000 in
lemma step_case2 {sets : List (Finset ℕ)} {u v a b : ℕ} {rest : List ℕ}
    (hd : sets.Pairwise Disjoint)
    (hc : ∀ s ∈ sets, 2 ≤ s.card)
    (hab : a < b) (hb : b < sets.length)
    (hPa : u ∈ sets.getD a ∅ ∨ v ∈ sets.getD a ∅)
    (hPb : u ∈ sets.getD b ∅ ∨ v ∈ sets.getD b ∅)
    (hoth : ∀ i, i < sets.length → i ≠ a → i ≠ b →
      u ∉ sets.getD i ∅ ∧ v ∉ sets.getD i ∅) :
    (applyEdge sets (a :: b :: rest) u v).Pairwise Disjoint ∧
    unionSets (applyEdge sets (a :: b :: rest) u v) = unionSets sets ∪ {u, v} ∧
    (∀ s ∈ applyEdge sets (a :: b :: rest) u v, 2 ≤ s.card) ∧
    (unionSets (applyEdge sets (a :: b :: rest) u v)).card = (unionSets sets).card ∧
    (applyEdge sets (a :: b :: rest) u v).length + 1 = sets.length ∧
    (∀ x y, together sets x y → together (applyEdge sets (a :: b :: rest) u v) x y) ∧
    together (applyEdge sets (a :: b :: rest) u v) u v := by
  have ha : a < sets.length := lt_trans hab hb
  obtain ⟨T1, T2, T3, hl, hT1, hT2, hoth'⟩ := decomp2 hab hb
  have happ : applyEdge sets (a :: b :: rest) u v =
      T1 ++ (sets.getD a ∅ ∪ sets.getD b ∅) :: (T2 ++ T3) :=
    applyEdge_two_eq hl hT1 hT2 hab
  set A := sets.getD a ∅ with hA
  set B := sets.getD b ∅ with hB
  have hAmem : A ∈ sets := by rw [hl]; simp
  have hBmem : B ∈ sets := by rw [hl]; simp
  have hdAB : Disjoint A B := by
    have hg := List.pairwise_iff_get.1 hd ⟨a, ha⟩ ⟨b, hb⟩ hab
    simp only [List.get_eq_getElem] at hg
    rwa [← getD_eq_getElem' ha, ← getD_eq_getElem' hb] at hg
  have hplace : (u ∈ A ∧ v ∈ B) ∨ (v ∈ A ∧ u ∈ B) := by
    rcases hPa with huA | hvA
    · rcases hPb with huB | hvB
      · exact absurd huB (Finset.disjoint_left.1 hdAB huA)
      · exact Or.inl ⟨huA, hvB⟩
    · rcases hPb with huB | hvB
      · exact Or.inr ⟨hvA, huB⟩
      · exact absurd hvB (Finset.disjoint_left.1 hdAB hvA)
  have huM : u ∈ A ∪ B := by
    rcases hplace with ⟨h1, _⟩ | ⟨_, h2⟩
    · exact Finset.mem_union_left _ h1
    · exact Finset.mem_union_right _ h2
  have hvM : v ∈ A ∪ B := by
    rcases hplace with ⟨_, h2⟩ | ⟨h1, _⟩
    · exact Finset.mem_union_right _ h2
    · exact Finset.mem_union_left _ h1
  have huin : u ∈ unionSets sets := by
    rcases hplace with ⟨h1, _⟩ | ⟨_, h2⟩
    · exact mem_unionSets.2 ⟨A, hAmem, h1⟩
    · exact mem_unionSets.2 ⟨B, hBmem, h2⟩
  have hvin : v ∈ unionSets sets := by
    rcases hplace with ⟨_, h2⟩ | ⟨h1, _⟩
    · exact mem_unionSets.2 ⟨B, hBmem, h2⟩
    · exact mem_unionSets.2 ⟨A, hAmem, h1⟩
  have hdl := hd
  rw [hl, List.pairwise_append, List.pairwise_cons] at hdl
  obtain ⟨hpT1, ⟨hArest, hp3⟩, hcross⟩ := hdl
  rw [List.pairwise_append, List.pairwise_cons] at hp3
  obtain ⟨hpT2, ⟨hBT3, hpT3⟩, hcrossT2⟩ := hp3
  have hUnionEq : unionSets (applyEdge sets (a :: b :: rest) u v) = unionSets sets := by
    rw [happ, hl]
    simp only [unionSets_append, unionSets_cons]
    ext x
    simp only [Finset.mem_union]
    tauto
  have hUnion : unionSets (applyEdge sets (a :: b :: rest) u v) =
      unionSets sets ∪ {u, v} := by
    rw [hUnionEq]
    ext x
    simp only [Finset.mem_union, Finset.mem_insert, Finset.mem_singleton]
    constructor
    · exact fun h => Or.inl h
    · rintro (h | rfl | rfl)
      · exact h
      · exact huin
      · exact hvin
  refine ⟨?_, hUnion, ?_, by rw [hUnionEq], ?_, ?_, ?_⟩
  · rw [happ, List.pairwise_append, List.pairwise_cons]
    refine ⟨hpT1, ⟨?_, ?_⟩, ?_⟩
    · intro s hs
      rcases List.mem_append.1 hs with hs | hs
      · rw [Finset.disjoint_union_left]
        exact ⟨hArest s (List.mem_append_left _ hs),
          (hcrossT2 s hs B (by simp)).symm⟩
      · rw [Finset.disjoint_union_left]
        exact ⟨hArest s (List.mem_append_right _ (List.mem_cons_of_mem _ hs)),
          hBT3 s hs⟩
    · rw [List.pairwise_append]
      exact ⟨hpT2, hpT3, fun x hx y hy => hcrossT2 x hx y (List.mem_cons_of_mem _ hy)⟩
    · intro t ht s hs
      rcases List.mem_cons.1 hs with rfl | hs
      · rw [Finset.disjoint_union_right]
        exact ⟨hcross t ht A (by simp), hcross t ht B (by simp)⟩
      · rcases List.mem_append.1 hs with hs | hs
        · exact hcross t ht s (by simp [hs])
        · exact hcross t ht s (by simp [hs])
  · intro s hs
    rw [happ] at hs
    rcases List.mem_append.1 hs with hs | hs
    · exact hc s (by rw [hl]; exact List.mem_append_left _ hs)
    · rcases List.mem_cons.1 hs with rfl | hs
      · calc 2 ≤ A.card := hc A hAmem
          _ ≤ (A ∪ B).card := Finset.card_le_card Finset.subset_union_left
      · rcases List.mem_append.1 hs with hs | hs
        · exact hc s (by rw [hl]; simp [hs])
        · exact hc s (by rw [hl]; simp [hs])
  · rw [happ, hl]
    simp
    omega
  · rintro x y ⟨s, hs, hx, hy⟩
    rw [hl] at hs
    rcases List.mem_append.1 hs with hs | hs
    · exact ⟨s, by rw [happ]; exact List.mem_append_left _ hs, hx, hy⟩
    · rcases List.mem_cons.1 hs with rfl | hs
      · exact ⟨A ∪ B, by rw [happ]; simp, Finset.mem_union_left _ hx,
          Finset.mem_union_left _ hy⟩
      · rcases List.mem_append.1 hs with hs | hs
        · exact ⟨s, by rw [happ]; simp [hs], hx, hy⟩
        · rcases List.mem_cons.1 hs with rfl | hs
          · exact ⟨A ∪ B, by rw [happ]; simp, Finset.mem_union_right _ hx,
              Finset.mem_union_right _ hy⟩
          · exact ⟨s, by rw [happ]; simp [hs], hx, hy⟩
  · exact ⟨A ∪ B, by rw [happ]; simp, huM, hvM⟩

/-- Master lemma for one accepted-edge mutation: given a disjoint partition
with no singleton sets and a scan that did not flag a cycle, the defensive
bound on `found` holds and all structural facts about the mutated
partition follow. -/
lemma step_master {sets : List (Finset ℕ)} {u v : ℕ} {found : List ℕ}
    (hd : sets.Pairwise Disjoint)
    (hc : ∀ s ∈ sets, 2 ≤ s.card)
    (huv : u ≠ v)
    (hscan : scanSets u v sets 0 = (false, found)) :
    found.length ≤ 2 ∧
    (applyEdge sets found u v).Pairwise Disjoint ∧
    unionSets (applyEdge sets found u v) = unionSets sets ∪ {u, v} ∧
    (∀ s ∈ applyEdge sets found u v, 2 ≤ s.card) ∧
    (unionSets (applyEdge sets found u v)).card + sets.length
      = (unionSets sets).card + (applyEdge sets found u v).length + 1 ∧
    (∀ x y, together sets x y → together (applyEdge sets found u v) x y) ∧
    together (applyEdge sets found u v) u v := by
  have hnb := scan_false_no_both hscan
  have hlen2 := found_length_le_two hd hscan
  rcases found with _ | ⟨a, _ | ⟨b, t⟩⟩
  · have hu : u ∉ unionSets sets := by
      intro hm
      obtain ⟨i, hi, hui⟩ := mem_unionSets_idx.1 hm
      have hmem : i ∈ ([] : List ℕ) := (mem_found_iff hscan).2 ⟨hi, Or.inl hui⟩
      simp at hmem
    have hv : v ∉ unionSets sets := by
      intro hm
      obtain ⟨i, hi, hvi⟩ := mem_unionSets_idx.1 hm
      have hmem : i ∈ ([] : List ℕ) := (mem_found_iff hscan).2 ⟨hi, Or.inr hvi⟩
      simp at hmem
    obtain ⟨p1, p2, p3, p4, p5, p6, p7⟩ := step_case0 hd hc huv hu hv
    have happ0 : applyEdge sets [] u v = sets ++ [insert v (insert u ∅)] := rfl
    rw [happ0]
    exact ⟨by simp, p1, p2, p3, by omega, p6, p7⟩
  · have hself : a < sets.length ∧ (u ∈ sets.getD a ∅ ∨ v ∈ sets.getD a ∅) :=
      (mem_found_iff hscan).1 (by simp)
    have hoth : ∀ i, i < sets.length → i ≠ a →
        u ∉ sets.getD i ∅ ∧ v ∉ sets.getD i ∅ := by
      intro i hi hia
      by_contra hcon
      push_neg at hcon
      have hP : u ∈ sets.getD i ∅ ∨ v ∈ sets.getD i ∅ := by tauto
      have hmem : i ∈ [a] := (mem_found_iff hscan).2 ⟨hi, hP⟩
      simp at hmem
      exact hia hmem
    obtain ⟨p1, p2, p3, p4, p5, p6, p7⟩ :=
      step_case1 hd hc hself.1 hself.2 hnb hoth
    exact ⟨by simp, p1, p2, p3, by omega, p6, p7⟩
  · have hplt := found_pairwise_lt hscan
    have hab : a < b := (List.pairwise_cons.1 hplt).1 b (by simp)
    have hselfa : a < sets.length ∧ (u ∈ sets.getD a ∅ ∨ v ∈ sets.getD a ∅) :=
      (mem_found_iff hscan).1 (by simp)
    have hselfb : b < sets.length ∧ (u ∈ sets.getD b ∅ ∨ v ∈ sets.getD b ∅) :=
      (mem_found_iff hscan).1 (by simp)
    have ht : t = [] := by
      rcases t with _ | ⟨c, t'⟩
      · rfl
      · simp at hlen2
    subst ht
    have hoth : ∀ i, i < sets.length → i ≠ a → i ≠ b →
        u ∉ sets.getD i ∅ ∧ v ∉ sets.getD i ∅ := by
      intro i hi hia hib
      by_contra hcon
      push_neg at hcon
      have hP : u ∈ sets.getD i ∅ ∨ v ∈ sets.getD i ∅ := by tauto
      have hmem : i ∈ [a, b] := (mem_found_iff hscan).2 ⟨hi, hP⟩
      simp at hmem
      tauto
    obtain ⟨p1, p2, p3, p4, p5, p6, p7⟩ :=
      step_case2 hd hc hab hselfb.1 hselfa.2 hselfb.2 hoth
    exact ⟨by simp, p1, p2, p3, by omega, p6, p7⟩

/-- Main loop lemma: under the invariant, the loop never fails, never
breaks early, preserves the invariant, preserves connectivity, and
connects the endpoints of every processed edge. -/
lemma loop_ok {n : ℕ} : ∀ (L : List Edge) (sets : List (Finset ℕ)) (acc : List Edge),
    Inv n sets acc → (∀ e ∈ L, e.u < e.v ∧ e.v < n) →
    ∃ sets' acc',
      mstLoop n L sets acc = .ok (sets', acc', []) ∧
      Inv n sets' acc' ∧
      (∀ x y, together sets x y → together sets' x y) ∧
      (∀ e ∈ L, together sets' e.u e.v) := by
  intro L
  induction L with
  | nil =>
    intro sets acc hInv _
    exact ⟨sets, acc, rfl, hInv, fun x y h => h, by simp⟩
  | cons e rest ih =>
    intro sets acc hInv hvalid
    obtain ⟨⟨hd, hun, hc⟩, hcount, hbound⟩ := hInv
    have hev := hvalid e (by simp)
    have huv : e.u ≠ e.v := Nat.ne_of_lt hev.1
    rcases hsc : scanSets e.u e.v sets 0 with ⟨cyc, found⟩
    cases cyc
    · -- not cyclic: the edge is accepted
      obtain ⟨hlen2, p2, p3, p4, p5, p6, p7⟩ :=
        step_master hd hc huv hsc
      set sets₁ := applyEdge sets found e.u e.v with hsets₁
      set acc₁ := acc ++ [e] with hacc₁
      have hnodes₁ : nodesOf acc₁ = unionSets sets₁ := by
        rw [hacc₁, nodesOf_append1, p3, hun]
        ext x
        simp only [Finset.mem_union, Finset.mem_insert, Finset.mem_singleton]
        tauto
      have hbound₁ : nodesOf acc₁ ⊆ Finset.range n := by
        rw [hacc₁, nodesOf_append1]
        intro x hx
        simp only [Finset.mem_insert] at hx
        rcases hx with rfl | rfl | hx
        · exact Finset.mem_range.2 hev.2
        · exact Finset.mem_range.2 (lt_trans hev.1 hev.2)
        · exact hbound hx
      have hcount₁ : (nodesOf acc₁).card = acc₁.length + sets₁.length := by
        rw [hnodes₁]
        rw [hun] at p5
        have : acc₁.length = acc.length + 1 := by rw [hacc₁]; simp
        omega
      have hInv₁ : Inv n sets₁ acc₁ :=
        ⟨⟨p2, hnodes₁.symm, p4⟩, hcount₁, hbound₁⟩
      have hsets₁ne : sets₁.length ≠ 0 := by
        intro h0
        have : sets₁ = [] := List.length_eq_zero.1 h0
        have huin : e.u ∈ nodesOf acc₁ := by
          rw [hacc₁]
          exact mem_nodesOf.2 ⟨e, by simp, Or.inl rfl⟩
        rw [hnodes₁, this, unionSets_nil] at huin
        simp at huin
      have hlt : acc₁.length < n := by
        have hle : (nodesOf acc₁).card ≤ n := by
          have := Finset.card_le_card hbound₁
          simpa using this
        omega
      have hlen₁ : acc₁.length = acc.length + 1 := by rw [hacc₁]; simp
      have hne : acc.length + 1 ≠ n := by omega
      have hred : mstLoop n (e :: rest) sets acc = mstLoop n rest sets₁ acc₁ := by
        simp only [mstLoop, hsc]
        simp [hlen2, hne, hsets₁, hacc₁]
      obtain ⟨sets', acc', hrun, hInv', hmono, hall⟩ :=
        ih sets₁ acc₁ hInv₁ (fun e' he' => hvalid e' (by simp [he']))
      refine ⟨sets', acc', by rw [hred]; exact hrun, hInv', ?_, ?_⟩
      · exact fun x y h => hmono x y (p6 x y h)
      · intro e' he'
        rcases List.mem_cons.1 he' with rfl | he'
        · exact hmono e'.u e'.v p7
        · exact hall e' he'
    · -- cyclic: the edge is discarded
      have htog : together sets e.u e.v := by
        have := (scan_fst_iff e.u e.v sets 0).1 (by rw [hsc])
        exact this
      have hred : mstLoop n (e :: rest) sets acc = mstLoop n rest sets acc := by
        simp only [mstLoop, hsc]
        simp
      obtain ⟨sets', acc', hrun, hInv', hmono, hall⟩ :=
        ih sets acc ⟨⟨hd, hun, hc⟩, hcount, hbound⟩
          (fun e' he' => hvalid e' (by simp [he']))
      refine ⟨sets', acc', by rw [hred]; exact hrun, hInv', hmono, ?_⟩
      intro e' he'
      rcases List.mem_cons.1 he' with rfl | he'
      · exact hmono e'.u e'.v htog
      · exact hall e' he'

/-! ## The edge enumeration (mst.py lines 56–65) -/

lemma mem_range1 {s n m : ℕ} : m ∈ List.range' s n ↔ s ≤ m ∧ m < s + n := by
  rw [List.mem_range']
  constructor
  · rintro ⟨i, hi, rfl⟩
    omega
  · rintro ⟨h1, h2⟩
    exact ⟨m - s, by omega, by omega⟩

lemma mem_pairList {n i j : ℕ} : (i, j) ∈ pairList n ↔ i < j ∧ j < n := by
  unfold pairList
  rw [List.mem_flatMap]
  constructor
  · rintro ⟨a, ha, hmem⟩
    rw [List.mem_map] at hmem
    obtain ⟨b, hb, heq⟩ := hmem
    injection heq with h1 h2
    subst h1
    subst h2
    rw [mem_range1] at hb
    rw [List.mem_range] at ha
    omega
  · rintro ⟨hij, hjn⟩
    refine ⟨i, List.mem_range.2 (lt_trans hij hjn), ?_⟩
    rw [List.mem_map]
    exact ⟨j, mem_range1.2 ⟨by omega, by omega⟩, rfl⟩

lemma make_edge_lt {inst : List Point} {keys : ℕ → ℕ → ℕ} {i j : ℕ} (hij : i < j) :
    make_edge inst keys i j =
      { cost := distance inst i j, key := keys i j, u := i, v := j } := by
  unfold make_edge
  rw [min_eq_left (le_of_lt hij), max_eq_right (le_of_lt hij)]

lemma mem_make_sorted_edges {inst : List Point} {keys : ℕ → ℕ → ℕ} {e : Edge} :
    e ∈ make_sorted_edges inst keys ↔
      ∃ p ∈ pairList inst.length, e = make_edge inst keys p.1 p.2 := by
  unfold make_sorted_edges
  rw [List.mem_insertionSort, List.mem_map]
  constructor
  · rintro ⟨p, hp, rfl⟩
    exact ⟨p, hp, rfl⟩
  · rintro ⟨p, hp, rfl⟩
    exact ⟨p, hp, rfl⟩

lemma make_sorted_edges_valid {inst : List Point} {keys : ℕ → ℕ → ℕ} :
    ∀ e ∈ make_sorted_edges inst keys, e.u < e.v ∧ e.v < inst.length := by
  intro e he
  obtain ⟨p, hp, rfl⟩ := mem_make_sorted_edges.1 he
  have hpp : p.1 < p.2 ∧ p.2 < inst.length := mem_pairList.1 (by
    rcases p with ⟨i, j⟩
    exact hp)
  rw [make_edge_lt hpp.1]
  exact hpp

lemma make_sorted_edges_complete {inst : List Point} {keys : ℕ → ℕ → ℕ} {i j : ℕ}
    (hij : i < j) (hj : j < inst.length) :
    ({ cost := distance inst i j, key := keys i j, u := i, v := j } : Edge) ∈
      make_sorted_edges inst keys := by
  rw [mem_make_sorted_edges]
  exact ⟨(i, j), mem_pairList.2 ⟨hij, hj⟩, (make_edge_lt hij).symm⟩

/-- Uniqueness of the containing set in a pairwise-disjoint list. -/
lemma unique_set_of_mem {l : List (Finset ℕ)} (hd : l.Pairwise Disjoint) {x i j : ℕ}
    (hi : i < l.length) (hj : j < l.length)
    (hxi : x ∈ l.get ⟨i, hi⟩) (hxj : x ∈ l.get ⟨j, hj⟩) : i = j := by
  by_contra hne
  rcases Nat.lt_or_ge i j with hij | hij
  · exact Finset.disjoint_left.1 (List.pairwise_iff_get.1 hd ⟨i, hi⟩ ⟨j, hj⟩ hij) hxi hxj
  · have hji : j < i := by omega
    exact Finset.disjoint_left.1 (List.pairwise_iff_get.1 hd ⟨j, hj⟩ ⟨i, hi⟩ hji) hxj hxi

/-- Endgame: for an instance with at least two points the loop succeeds,
the accepted edges span all nodes, and exactly `n - 1` edges are
accepted. -/
lemma mst_main {inst : List Point} {keys : ℕ → ℕ → ℕ} (h2 : 2 ≤ inst.length) :
    ∃ es, mst inst keys = Except.ok es ∧ es.length = inst.length - 1 ∧
      nodesOf es = Finset.range inst.length := by
  set n := inst.length with hn
  have hInv0 : Inv n [] [] := by
    refine ⟨⟨List.Pairwise.nil, rfl, by simp⟩, by simp [nodesOf], by simp [nodesOf]⟩
  obtain ⟨sets', acc', hrun, hInv', hmono, hall⟩ :=
    loop_ok (make_sorted_edges inst keys) [] [] hInv0 make_sorted_edges_valid
  obtain ⟨⟨hd', hun', hc'⟩, hcount', hbound'⟩ := hInv'
  have htogether : ∀ i j, i < j → j < n → together sets' i j := by
    intro i j hij hj
    have he := @make_sorted_edges_complete inst keys i j hij hj
    have := hall _ he
    simpa using this
  have hspan : ∀ x, x < n → x ∈ nodesOf acc' := by
    intro x hx
    have h01 : (1 : ℕ) < n := h2
    rcases Nat.eq_zero_or_pos x with rfl | hxpos
    · obtain ⟨s, hs, h0, _⟩ := htogether 0 1 Nat.zero_lt_one h01
      rw [← hun']
      exact mem_unionSets.2 ⟨s, hs, h0⟩
    · obtain ⟨s, hs, _, hx2⟩ := htogether 0 x hxpos hx
      rw [← hun']
      exact mem_unionSets.2 ⟨s, hs, hx2⟩
  have hnodes : nodesOf acc' = Finset.range n := by
    apply Finset.Subset.antisymm hbound'
    intro x hx
    exact hspan x (Finset.mem_range.1 hx)
  have hsets_ne : sets' ≠ [] := by
    intro h0
    have : (0 : ℕ) ∈ nodesOf acc' := hspan 0 (by omega)
    rw [← hun', h0, unionSets_nil] at this
    simp at this
  have hsets_le : sets'.length ≤ 1 := by
    by_contra hcon
    push_neg at hcon
    have h0 : 0 < sets'.length := by omega
    have h1 : 1 < sets'.length := hcon
    have hs0 := hc' _ (sets'.get_mem 0 h0)
    have hs1 := hc' _ (sets'.get_mem 1 h1)
    obtain ⟨x, hxmem⟩ := Finset.card_pos.1 (by omega : 0 < (sets'.get ⟨0, h0⟩).card)
    obtain ⟨y, hymem⟩ := Finset.card_pos.1 (by omega : 0 < (sets'.get ⟨1, h1⟩).card)
    have hxy : x ≠ y := by
      intro h
      subst h
      have h01 : (0 : ℕ) = 1 := unique_set_of_mem hd' h0 h1 hxmem hymem
      simp at h01
    have hxn : x < n := by
      have : x ∈ nodesOf acc' := by
        rw [← hun']
        exact mem_unionSets.2 ⟨_, sets'.get_mem 0 h0, hxmem⟩
      rw [hnodes] at this
      exact Finset.mem_range.1 this
    have hyn : y < n := by
      have : y ∈ nodesOf acc' := by
        rw [← hun']
        exact mem_unionSets.2 ⟨_, sets'.get_mem 1 h1, hymem⟩
      rw [hnodes] at this
      exact Finset.mem_range.1 this
    have htog : together sets' (min x y) (max x y) := by
      apply htogether
      · omega
      · omega
    obtain ⟨w, hw, hwmin, hwmax⟩ := htog
    have hwx : x ∈ w := by
      rcases le_total x y with h | h
      · rwa [min_eq_left h] at hwmin
      · rwa [max_eq_left h] at hwmax
    have hwy : y ∈ w := by
      rcases le_total x y with h | h
      · rwa [max_eq_right h] at hwmax
      · rwa [min_eq_right h] at hwmin
    obtain ⟨p, hp, hwp⟩ := List.mem_iff_getElem.1 hw
    have hgetp : sets'.get ⟨p, hp⟩ = w := hwp
    have hp0 : p = 0 := unique_set_of_mem hd' hp h0 (by rw [hgetp]; exact hwx) hxmem
    have hp1 : p = 1 := unique_set_of_mem hd' hp h1 (by rw [hgetp]; exact hwy) hymem
    omega
  have hsets1 : sets'.length = 1 := by
    have : sets' ≠ [] := hsets_ne
    have : 0 < sets'.length := List.length_pos.2 this
    omega
  have hcard : (nodesOf acc').card = n := by
    rw [hnodes, Finset.card_range]
  have hlen : acc'.length = n - 1 := by
    rw [hcard, hsets1] at hcount'
    omega
  refine ⟨acc', ?_, hlen, hnodes⟩
  unfold mst
  rw [← hn, hrun]
  simp [hcard]

/-- Every run of `mst` executes the loop to completion: it returns `ok`
with an empty unprocessed suffix and an invariant-satisfying final state. -/
lemma mst_run (inst : List Point) (keys : ℕ → ℕ → ℕ) :
    ∃ sets' acc',
      mstLoop inst.length (make_sorted_edges inst keys) [] [] =
        Except.ok (sets', acc', []) ∧
      Inv inst.length sets' acc' := by
  have hInv0 : Inv inst.length [] [] :=
    ⟨⟨List.Pairwise.nil, rfl, by simp⟩, by simp [nodesOf], by simp [nodesOf]⟩
  obtain ⟨sets', acc', hrun, hInv', _, _⟩ :=
    loop_ok (make_sorted_edges inst keys) [] [] hInv0 make_sorted_edges_valid
  exact ⟨sets', acc', hrun, hInv'⟩

/-- Replay lemma: the loop's accepted output replays acyclically from the
state it started in. -/
lemma loop_replay {n : ℕ} : ∀ (L : List Edge) (sets : List (Finset ℕ))
    (acc : List Edge) (sets' : List (Finset ℕ)) (acc' rest : List Edge),
    mstLoop n L sets acc = Except.ok (sets', acc', rest) →
    ∃ Δ, acc' = acc ++ Δ ∧ replayOk Δ sets = true := by
  intro L
  induction L with
  | nil =>
    intro sets acc sets' acc' rest h
    simp only [mstLoop, Except.ok.injEq, Prod.mk.injEq] at h
    exact ⟨[], by rw [← h.2.1]; simp, rfl⟩
  | cons e rest' ih =>
    intro sets acc sets' acc' rest h
    rcases hsc : scanSets e.u e.v sets 0 with ⟨cyc, found⟩
    cases cyc
    · by_cases hfl : found.length ≤ 2
      · by_cases hbr : (acc ++ [e]).length = n
        · simp only [mstLoop, hsc] at h
          simp only [hfl, if_true, hbr, if_pos, Bool.false_eq_true, if_false,
            Except.ok.injEq, Prod.mk.injEq] at h
          refine ⟨[e], by rw [← h.2.1], ?_⟩
          simp only [replayOk, hsc]
          rfl
        · simp only [mstLoop, hsc] at h
          simp only [hfl, if_true, hbr, if_neg, Bool.false_eq_true, if_false,
            not_false_iff] at h
          obtain ⟨Δ', hΔ1, hΔ2⟩ := ih _ _ _ _ _ h
          refine ⟨e :: Δ', by rw [hΔ1]; simp, ?_⟩
          simp only [replayOk, hsc]
          exact hΔ2
      · simp only [mstLoop, hsc] at h
        simp [hfl] at h
    · simp only [mstLoop, hsc] at h
      simp only [if_true] at h
      obtain ⟨Δ, h1, h2⟩ := ih _ _ _ _ _ h
      exact ⟨Δ, h1, h2⟩

/-- Claim C1: For every point set of size `n ≥ 2` (and every draw of
tie-break keys), `mst` succeeds and the returned edge sequence contains
exactly `n - 1` accepted edges. -/
theorem mst_edge_count (inst : List Point) (keys : ℕ → ℕ → ℕ)
    (h2 : 2 ≤ inst.length) :
    ∃ es, mst inst keys = Except.ok es ∧ es.length = inst.length - 1 := by
  obtain ⟨es, h1, h2', _⟩ := @mst_main inst keys h2
  exact ⟨es, h1, h2'⟩

/-- Witness for `mst_edge_count` at the three-point instance
`A(0,0), B(3,0), C(3,4)` with all-zero keys. -/
theorem mst_edge_count_witness :
    ∃ es, mst [((0 : ℤ), (0 : ℤ)), (3, 0), (3, 4)] (fun _ _ => 0) = Except.ok es ∧
      es.length = 2 := by
  obtain ⟨es, h1, h2⟩ :=
    mst_edge_count [((0 : ℤ), (0 : ℤ)), (3, 0), (3, 4)] (fun _ _ => 0) (by decide)
  exact ⟨es, h1, h2⟩

/-- Claim C2: Whenever `mst` returns a result, the set of distinct node
indices across the accepted edges equals `{0, …, n-1}`; and the final
check fails with the invariant-violation error exactly when the covered
cardinality differs from `n`. -/
theorem mst_spanning :
    (∀ (inst : List Point) (keys : ℕ → ℕ → ℕ) (es : List Edge),
        mst inst keys = Except.ok es → nodesOf es = Finset.range inst.length) ∧
    (∀ (inst : List Point) (keys : ℕ → ℕ → ℕ) (sets' : List (Finset ℕ))
        (acc' rest : List Edge),
        mstLoop inst.length (make_sorted_edges inst keys) [] [] =
          Except.ok (sets', acc', rest) →
        (nodesOf acc').card ≠ inst.length →
        mst inst keys = Except.error MstError.spanAssert) := by
  constructor
  · intro inst keys es hok
    obtain ⟨sets', acc', hrun, hInv'⟩ := mst_run inst keys
    unfold mst at hok
    rw [hrun] at hok
    by_cases hcard : (nodesOf acc').card = inst.length
    · simp only [hcard, if_true] at hok
      obtain rfl : acc' = es := by simpa using hok
      apply Finset.eq_of_subset_of_card_le hInv'.2.2
      rw [Finset.card_range, hcard]
    · simp [hcard] at hok
  · intro inst keys sets' acc' rest hrun hcard
    unfold mst
    rw [hrun]
    simp [hcard]

/-- Witness for `mst_spanning`: on the three-point instance the returned
edges `{AB, BC}` cover exactly the node set `{0, 1, 2}`. -/
theorem mst_spanning_witness :
    nodesOf [⟨3, 0, 0, 1⟩, ⟨4, 0, 1, 2⟩] = Finset.range 3 :=
  mst_spanning.1 [((0 : ℤ), (0 : ℤ)), (3, 0), (3, 4)] (fun _ _ => 0)
    [⟨3, 0, 0, 1⟩, ⟨4, 0, 1, 2⟩] (by rfl)

/-- Claim C3: The MST result is acyclic: replaying the accepted edges in
output order against a fresh partition, no accepted edge ever has both
endpoints in the same component. -/
theorem mst_acyclic (inst : List Point) (keys : ℕ → ℕ → ℕ) (es : List Edge)
    (hok : mst inst keys = Except.ok es) : replayOk es [] = true := by
  obtain ⟨sets', acc', hrun, _⟩ := mst_run inst keys
  unfold mst at hok
  rw [hrun] at hok
  by_cases hcard : (nodesOf acc').card = inst.length
  · simp only [hcard, if_true] at hok
    obtain rfl : acc' = es := by simpa using hok
    obtain ⟨Δ, hΔ1, hΔ2⟩ := loop_replay _ _ _ _ _ _ hrun
    have hed : acc' = Δ := by simpa using hΔ1
    rw [hed]
    exact hΔ2
  · simp [hcard] at hok

/-- Witness for `mst_acyclic` at the three-point instance. -/
theorem mst_acyclic_witness :
    replayOk [⟨3, 0, 0, 1⟩, ⟨4, 0, 1, 2⟩] [] = true :=
  mst_acyclic [((0 : ℤ), (0 : ℤ)), (3, 0), (3, 4)] (fun _ _ => 0)
    [⟨3, 0, 0, 1⟩, ⟨4, 0, 1, 2⟩] (by rfl)

/-- Claim C4, counterexample: The claim "if `n < 2` the run fails with an
InvalidInput condition" is false on the code: for the empty point set the
run does not fail at all — it returns the empty edge list. -/
theorem c4_no_invalid_input_cex :
    ([] : List Point).length < 2 ∧
      mst ([] : List Point) (fun _ _ => 0) = Except.ok [] :=
  ⟨by decide, rfl⟩

/-- Claim C4, amended: The code has no `n < 2` input check: for `n = 0` the
run succeeds with an empty result, and for `n = 1` it fails only via the
final validation assertion (`spanAssert`), not via an InvalidInput
condition in the edge enumerator (which returns an empty edge list and no
error). -/
theorem mst_small_instances (keys : ℕ → ℕ → ℕ) (p : Point) :
    make_sorted_edges [p] keys = [] ∧
    mst ([] : List Point) keys = Except.ok [] ∧
    mst [p] keys = Except.error MstError.spanAssert :=
  ⟨rfl, rfl, rfl⟩

/-- Witness for `mst_small_instances` at a concrete point and key draw. -/
theorem mst_small_instances_witness :
    make_sorted_edges [((5 : ℤ), (5 : ℤ))] (fun _ _ => 0) = [] ∧
    mst ([] : List Point) (fun _ _ => 0) = Except.ok [] ∧
    mst [((5 : ℤ), (5 : ℤ))] (fun _ _ => 0) = Except.error MstError.spanAssert :=
  mst_small_instances (fun _ _ => 0) ((5 : ℤ), (5 : ℤ))

/-- Claim C5, the code evaluated at the failing input: On the three-point
instance the break `len(edges) == len(instance)` never fires: the loop
runs through all three ranked edges (unprocessed suffix length 0) even
though the accepted count already equals `n - 1 = 2` after the second
edge — running the loop on just the first two ranked edges already yields
two accepted edges.  The loop therefore does not stop as soon as the
count reaches `n - 1`; its break compares against `n`, which is never
reached. -/
theorem loop_break_dead :
    (make_sorted_edges [((0 : ℤ), (0 : ℤ)), (3, 0), (3, 4)] (fun _ _ => 0)).length = 3 ∧
    (mstLoop 3 (make_sorted_edges [((0 : ℤ), (0 : ℤ)), (3, 0), (3, 4)] (fun _ _ => 0))
        [] []).map (fun r => (r.2.1.length, r.2.2.length)) = Except.ok (2, 0) ∧
    (mstLoop 3 ((make_sorted_edges [((0 : ℤ), (0 : ℤ)), (3, 0), (3, 4)]
        (fun _ _ => 0)).take 2) [] []).map (fun r => (r.2.1.length, r.2.2.length)) =
      Except.ok (2, 0) := by
  refine ⟨rfl, rfl, rfl⟩

/-- Claim C6: The Component Partition invariant — pairwise disjoint sets,
union exactly the touched nodes, and no singleton (or empty) set — holds
for the initial empty partition and is preserved by every accepted-edge
mutation (new pair, extend one set, or merge two sets). -/
theorem partition_invariant :
    PartInv [] [] ∧
    ∀ (sets : List (Finset ℕ)) (acc : List Edge) (e : Edge) (found : List ℕ),
      e.u < e.v → PartInv sets acc → scanSets e.u e.v sets 0 = (false, found) →
      PartInv (applyEdge sets found e.u e.v) (acc ++ [e]) := by
  constructor
  · exact ⟨List.Pairwise.nil, rfl, by simp⟩
  · intro sets acc e found huv ⟨hd, hun, hc⟩ hscan
    obtain ⟨_, p2, p3, p4, _, _, _⟩ := step_master hd hc (Nat.ne_of_lt huv) hscan
    refine ⟨p2, ?_, p4⟩
    rw [p3, hun, nodesOf_append1]
    ext x
    simp only [Finset.mem_union, Finset.mem_insert, Finset.mem_singleton]
    tauto

/-- Witness for `partition_invariant`: accepting the first edge `(0, 1)`
from the empty partition yields the partition `[{0, 1}]`. -/
theorem partition_invariant_witness :
    PartInv [insert 1 (insert 0 (∅ : Finset ℕ))] [⟨3, 0, 0, 1⟩] :=
  partition_invariant.2 [] [] ⟨3, 0, 0, 1⟩ [] (by decide)
    partition_invariant.1 rfl

/-- Claim C7: During the partition scan of a non-cyclic edge at most two
sets match the edge's endpoints (given disjointness), and consequently on
every run of `mst` the defensive `len(found) <= 2` assertion never fails:
the result is either a success or the final spanning-check error. -/
theorem scan_matches_at_most_two :
    (∀ (sets : List (Finset ℕ)) (u v : ℕ) (found : List ℕ),
        sets.Pairwise Disjoint → scanSets u v sets 0 = (false, found) →
        found.length ≤ 2) ∧
    (∀ (inst : List Point) (keys : ℕ → ℕ → ℕ),
        mst inst keys = Except.error MstError.spanAssert ∨
        ∃ es, mst inst keys = Except.ok es) := by
  constructor
  · intro sets u v found hd hscan
    exact found_length_le_two hd hscan
  · intro inst keys
    obtain ⟨sets', acc', hrun, _⟩ := mst_run inst keys
    unfold mst
    rw [hrun]
    by_cases hcard : (nodesOf acc').card = inst.length
    · exact Or.inr ⟨acc', by simp [hcard]⟩
    · exact Or.inl (by simp [hcard])

/-- Witness for `scan_matches_at_most_two` at a concrete partition and a
concrete run. -/
theorem scan_matches_at_most_two_witness :
    ([] : List ℕ).length ≤ 2 ∧
    (mst [((0 : ℤ), (0 : ℤ)), (3, 0), (3, 4)] (fun _ _ => 0) =
        Except.error MstError.spanAssert ∨
      ∃ es, mst [((0 : ℤ), (0 : ℤ)), (3, 0), (3, 4)] (fun _ _ => 0) = Except.ok es) :=
  ⟨scan_matches_at_most_two.1 [insert 1 (insert 0 ∅)] 5 7 []
      (List.pairwise_singleton _ _) (by decide),
    scan_matches_at_most_two.2 [((0 : ℤ), (0 : ℤ)), (3, 0), (3, 4)] (fun _ _ => 0)⟩

/-- Claim C10: For the empty point set the enumeration produces no candidate
edges, the loop body never runs, the final validation check passes
(`0 = 0`), and `mst` returns the empty edge sequence with no error. -/
theorem mst_empty_instance (keys : ℕ → ℕ → ℕ) :
    make_sorted_edges ([] : List Point) keys = [] ∧
    mstLoop 0 (make_sorted_edges ([] : List Point) keys) [] [] =
      Except.ok ([], [], []) ∧
    mst ([] : List Point) keys = Except.ok [] :=
  ⟨rfl, rfl, rfl⟩

/-- Witness for `mst_empty_instance` at a concrete key draw. -/
theorem mst_empty_instance_witness :
    mst ([] : List Point) (fun _ _ => 0) = Except.ok [] :=
  (mst_empty_instance (fun _ _ => 0)).2.2

/-! ## Tie-break-key independence (Edge Ranking, mst.py lines 49–65) -/

lemma edgeLe_cost {a b : Edge} (h : edgeLe a b) : a.cost ≤ b.cost := by
  unfold edgeLe at h
  omega

lemma strip_fields {e f : Edge} (h : strip e = strip f) :
    e.cost = f.cost ∧ e.u = f.u ∧ e.v = f.v := by
  unfold strip at h
  exact ⟨congrArg (·.1) h, congrArg (·.2.1) h, congrArg (·.2.2) h⟩

lemma map_strip_enum (inst : List Point) (k1 k2 : ℕ → ℕ → ℕ) :
    ((pairList inst.length).map fun p => make_edge inst k1 p.1 p.2).map strip =
      ((pairList inst.length).map fun p => make_edge inst k2 p.1 p.2).map strip := by
  simp only [List.map_map]
  apply List.map_congr_left
  intro p _
  simp [Function.comp, strip, make_edge]

lemma pairwise_cost_ne {inst : List Point} (keys : ℕ → ℕ → ℕ) (h : costsDistinct inst) :
    ((pairList inst.length).map fun p => make_edge inst keys p.1 p.2).Pairwise
      fun e f => e.cost ≠ f.cost := by
  rw [List.pairwise_map]
  exact h

/-- With all pairwise distances distinct, the ranked edge sequence is the
same modulo the tie-break keys, whatever keys are drawn. -/
lemma sorted_strip_eq {inst : List Point} (k1 k2 : ℕ → ℕ → ℕ)
    (h : costsDistinct inst) :
    (make_sorted_edges inst k1).map strip = (make_sorted_edges inst k2).map strip := by
  haveI : IsAntisymm (ℕ × ℕ × ℕ) (fun x y => x.1 < y.1) :=
    ⟨fun a b h1 h2 => absurd (lt_trans h1 h2) (lt_irrefl _)⟩
  have hperm : List.Perm ((make_sorted_edges inst k1).map strip)
      ((make_sorted_edges inst k2).map strip) := by
    unfold make_sorted_edges
    refine ((List.perm_insertionSort edgeLe _).map strip).trans ?_
    rw [map_strip_enum inst k1 k2]
    exact ((List.perm_insertionSort edgeLe _).map strip).symm
  have hsorted : ∀ keys : ℕ → ℕ → ℕ,
      ((make_sorted_edges inst keys).map strip).Pairwise fun x y => x.1 < y.1 := by
    intro keys
    rw [List.pairwise_map]
    have h1 : (make_sorted_edges inst keys).Pairwise edgeLe :=
      List.sorted_insertionSort edgeLe _
    have h2 : (make_sorted_edges inst keys).Pairwise fun e f => e.cost ≠ f.cost := by
      have hp : List.Perm (make_sorted_edges inst keys)
          ((pairList inst.length).map fun p => make_edge inst keys p.1 p.2) :=
        List.perm_insertionSort edgeLe _
      exact (hp.pairwise_iff fun hx => Ne.symm hx).2 (pairwise_cost_ne keys h)
    exact (h1.and h2).imp fun hb => lt_of_le_of_ne (edgeLe_cost hb.1) hb.2
  exact List.eq_of_perm_of_sorted hperm (hsorted k1) (hsorted k2)

/-- The loop's behavior depends on the ranked edges only through
`(cost, u, v)`: with strip-equal inputs the results are strip-equal. -/
lemma loop_strip_congr {n : ℕ} : ∀ (L1 L2 : List Edge) (sets : List (Finset ℕ))
    (acc1 acc2 : List Edge),
    L1.map strip = L2.map strip → acc1.map strip = acc2.map strip →
    (mstLoop n L1 sets acc1).map (fun r => (r.1, r.2.1.map strip, r.2.2.map strip)) =
      (mstLoop n L2 sets acc2).map
        (fun r => (r.1, r.2.1.map strip, r.2.2.map strip)) := by
  intro L1
  induction L1 with
  | nil =>
    intro L2 sets acc1 acc2 hL hacc
    have hL2 : L2 = [] := by
      have := congrArg List.length hL
      simpa using (List.length_eq_zero.1 (by simpa using this.symm))
    subst hL2
    simp [mstLoop, Except.map, hacc]
  | cons e1 t1 ih =>
    intro L2 sets acc1 acc2 hL hacc
    rcases L2 with _ | ⟨e2, t2⟩
    · simp at hL
    · simp only [List.map_cons, List.cons.injEq] at hL
      obtain ⟨hse, ht⟩ := hL
      obtain ⟨hc, hu, hv⟩ := strip_fields hse
      have hlen : acc1.length = acc2.length := by
        have := congrArg List.length hacc
        simpa using this
      rcases hsc : scanSets e1.u e1.v sets 0 with ⟨cyc, found⟩
      have hsc2 : scanSets e2.u e2.v sets 0 = (cyc, found) := by
        rw [← hu, ← hv]
        exact hsc
      have hacc' : (acc1 ++ [e1]).map strip = (acc2 ++ [e2]).map strip := by
        simp [hacc, hse]
      cases cyc
      · by_cases hfl : found.length ≤ 2
        · by_cases hbr : (acc1 ++ [e1]).length = n
          · have hbr2 : (acc2 ++ [e2]).length = n := by
              simp only [List.length_append, List.length_cons, List.length_nil] at hbr ⊢
              omega
            simp only [mstLoop, hsc, hsc2, Bool.false_eq_true, if_false, hfl, if_true,
              hbr, hbr2, if_pos, Except.map]
            simp only [Except.ok.injEq, Prod.mk.injEq]
            refine ⟨by rw [hu, hv], hacc', ht⟩
          · have hbr2 : ¬((acc2 ++ [e2]).length = n) := by
              simp only [List.length_append, List.length_cons, List.length_nil] at hbr ⊢
              omega
            simp only [mstLoop, hsc, hsc2, Bool.false_eq_true, if_false, hfl, if_true,
              hbr, hbr2]
            rw [hu, hv]
            exact ih t2 (applyEdge sets found e2.u e2.v) (acc1 ++ [e1]) (acc2 ++ [e2])
              ht hacc'
        · simp only [mstLoop, hsc, hsc2, Bool.false_eq_true, if_false, hfl, if_true]
      · simp only [mstLoop, hsc, hsc2, if_true]
        exact ih t2 sets acc1 acc2 ht hacc

lemma nodesOf_strip_subset {es1 es2 : List Edge}
    (h : es1.map strip = es2.map strip) : nodesOf es1 ⊆ nodesOf es2 := by
  intro x hx
  obtain ⟨e, he, hxe⟩ := mem_nodesOf.1 hx
  have hmem : strip e ∈ es2.map strip := by
    rw [← h]
    exact List.mem_map_of_mem _ he
  obtain ⟨f, hf, hsf⟩ := List.mem_map.1 hmem
  obtain ⟨_, huu, hvv⟩ := strip_fields hsf
  apply mem_nodesOf.2
  refine ⟨f, hf, ?_⟩
  rcases hxe with rfl | rfl
  · exact Or.inl huu.symm
  · exact Or.inr hvv.symm

lemma nodesOf_strip_congr {es1 es2 : List Edge}
    (h : es1.map strip = es2.map strip) : nodesOf es1 = nodesOf es2 :=
  Finset.Subset.antisymm (nodesOf_strip_subset h) (nodesOf_strip_subset h.symm)

lemma totalCost_strip_congr {es1 es2 : List Edge}
    (h : es1.map strip = es2.map strip) : totalCost es1 = totalCost es2 := by
  unfold totalCost
  have hmap : es1.map Edge.cost = es2.map Edge.cost := by
    have hc := congrArg (List.map fun x : ℕ × ℕ × ℕ => x.1) h
    simpa [List.map_map, Function.comp, strip] using hc
  rw [hmap]

/-- With all pairwise distances distinct, the whole run of `mst` is
independent of the drawn tie-break keys modulo the keys themselves. -/
lemma mst_strip_congr {inst : List Point} (k1 k2 : ℕ → ℕ → ℕ)
    (h : costsDistinct inst) :
    (mst inst k1).map (List.map strip) = (mst inst k2).map (List.map strip) := by
  have hloop := @loop_strip_congr inst.length (make_sorted_edges inst k1)
    (make_sorted_edges inst k2) [] [] [] (sorted_strip_eq k1 k2 h) rfl
  unfold mst
  rcases h1 : mstLoop inst.length (make_sorted_edges inst k1) [] [] with err1 | ⟨s1, a1, r1⟩ <;>
    rcases h2 : mstLoop inst.length (make_sorted_edges inst k2) [] [] with err2 | ⟨s2, a2, r2⟩ <;>
    rw [h1, h2] at hloop <;> simp only [Except.map] at hloop
  · simp only [Except.error.injEq] at hloop
    rw [hloop]
  · exact absurd hloop (by simp)
  · exact absurd hloop (by simp)
  · simp only [Except.ok.injEq, Prod.mk.injEq] at hloop
    obtain ⟨hs, ha, _⟩ := hloop
    have hnodes : nodesOf a1 = nodesOf a2 := nodesOf_strip_congr ha
    by_cases hcard : (nodesOf a1).card = inst.length
    · have hcard2 : (nodesOf a2).card = inst.length := by rw [← hnodes]; exact hcard
      simp [hcard, hcard2, Except.map, ha]
    · have hcard2 : ¬((nodesOf a2).card = inst.length) := by rw [← hnodes]; exact hcard
      simp [hcard, hcard2, Except.map]

/-- Claim C8: For a fixed point set whose pairwise rounded distances are all
distinct, the total MST cost is identical across any two runs that differ
only in the random tie-break keys. -/
theorem mst_cost_key_invariant (inst : List Point) (k1 k2 : ℕ → ℕ → ℕ)
    (h : costsDistinct inst) :
    (mst inst k1).map totalCost = (mst inst k2).map totalCost := by
  have hs := mst_strip_congr k1 k2 h
  rcases hm1 : mst inst k1 with e1 | es1 <;> rcases hm2 : mst inst k2 with e2 | es2 <;>
    rw [hm1, hm2] at hs <;> simp only [Except.map] at hs ⊢
  · simpa using hs
  · exact absurd hs (by simp)
  · exact absurd hs (by simp)
  · simp only [Except.ok.injEq] at hs ⊢
    exact totalCost_strip_congr hs

/-- Witness for `mst_cost_key_invariant`: the three-point instance has
distinct distances `3, 4, 5`, and two different key draws give the same
total cost. -/
theorem mst_cost_key_invariant_witness :
    costsDistinct [((0 : ℤ), (0 : ℤ)), (3, 0), (3, 4)] ∧
    (mst [((0 : ℤ), (0 : ℤ)), (3, 0), (3, 4)] (fun _ _ => 0)).map totalCost =
      (mst [((0 : ℤ), (0 : ℤ)), (3, 0), (3, 4)] (fun i j => 3 * i + j)).map totalCost :=
  ⟨by decide, mst_cost_key_invariant _ _ _ (by decide)⟩

/-- Claim C9: For the three-point instance `A(0,0), B(3,0), C(3,4)` the
pairwise costs are `AB = 3`, `BC = 4`, `AC = 5`, and for every choice of
tie-break keys the run selects exactly the edges `AB` and `BC` (in that
order, excluding `AC`) with total cost `7`. -/
theorem mst_scenario_A (keys : ℕ → ℕ → ℕ) :
    distance [((0 : ℤ), (0 : ℤ)), (3, 0), (3, 4)] 0 1 = 3 ∧
    distance [((0 : ℤ), (0 : ℤ)), (3, 0), (3, 4)] 1 2 = 4 ∧
    distance [((0 : ℤ), (0 : ℤ)), (3, 0), (3, 4)] 0 2 = 5 ∧
    (mst [((0 : ℤ), (0 : ℤ)), (3, 0), (3, 4)] keys).map (List.map strip) =
      Except.ok [(3, 0, 1), (4, 1, 2)] ∧
    (mst [((0 : ℤ), (0 : ℤ)), (3, 0), (3, 4)] keys).map totalCost = Except.ok 7 := by
  have hdist : costsDistinct [((0 : ℤ), (0 : ℤ)), (3, 0), (3, 4)] := by decide
  have hs := mst_strip_congr keys (fun _ _ => 0) hdist
  have hk0 : (mst [((0 : ℤ), (0 : ℤ)), (3, 0), (3, 4)] (fun _ _ => 0)).map
      (List.map strip) = Except.ok [(3, 0, 1), (4, 1, 2)] := rfl
  rw [hk0] at hs
  refine ⟨by decide, by decide, by decide, hs, ?_⟩
  rcases hm : mst [((0 : ℤ), (0 : ℤ)), (3, 0), (3, 4)] keys with err | es
  · rw [hm] at hs
    simp [Except.map] at hs
  · rw [hm] at hs
    simp only [Except.map, Except.ok.injEq] at hs ⊢
    have h7 : totalCost es = totalCost [⟨3, 0, 0, 1⟩, ⟨4, 0, 1, 2⟩] :=
      totalCost_strip_congr (by rw [hs]; rfl)
    rw [h7]
    rfl

/-- Witness for `mst_scenario_A` at a concrete key draw. -/
theorem mst_scenario_A_witness :
    (mst [((0 : ℤ), (0 : ℤ)), (3, 0), (3, 4)] (fun i j => i + 2 * j)).map
      (List.map strip) = Except.ok [(3, 0, 1), (4, 1, 2)] :=
  (mst_scenario_A (fun i j => i + 2 * j)).2.2.2.1

end MstPy
